import Mathlib

/-!
Verification of the jnbvisualizer core (src/app.py) against its
natural-language specification.

Shallow embedding conventions:
* Python floats are modelled as rationals (`ℚ`).
* A stitch record `(x, y, cmd)` is a triple `ℚ × ℚ × ℕ`, with the command
  encoding used by the source: 0 = STITCH, 1 = JUMP, 2 = TRIM, 3 = STOP,
  4 = END, 5 = COLOR_CHANGE.
* `raise HTTPException(status, detail)` is modelled as `Except.error` of an
  `HTTPError` record; a function that can raise returns `Except HTTPError α`.
* The comparison `dist > threshold` in the source is computed on
  `dist = sqrt (dx*dx + dy*dy)`; since both sides are nonnegative it is
  equivalent to `dx*dx + dy*dy > threshold^2`, which is how the executable
  embedding states it (the link to `Real.sqrt` is proved where a claim
  speaks of Euclidean distance).
-/

/-- A segment `(x1, y1, x2, y2)`, one drawable line. -/
abbrev Seg : Type := ℚ × ℚ × ℚ × ℚ

/-- A stitch record `(x, y, cmd)` as produced by `pattern.stitches`. -/
abbrev StitchRec : Type := ℚ × ℚ × ℕ

/-- Model of `HTTPException(status_code, detail)`. -/
structure HTTPError where
  status : ℕ
  detail : String
deriving DecidableEq, Repr

/-- `MAX_BLOCKS = 20` from the source configuration. -/
def MAX_BLOCKS : ℕ := 20

/-- Squared Euclidean distance `dx*dx + dy*dy` between two points, written
exactly as the source computes it before taking the square root. -/
def dist2 (p q : ℚ × ℚ) : ℚ :=
  (q.1 - p.1) * (q.1 - p.1) + (q.2 - p.2) * (q.2 - p.2)

/-- The loop state of `pattern_to_blocks_clean`: emitted `blocks`, the
running `current` block, and the `last` visited point (`None` initially). -/
structure ExtractState where
  blocks : List (List Seg)
  current : List Seg
  last : Option (ℚ × ℚ)
deriving DecidableEq, Repr

/-- One iteration of the loop body of `pattern_to_blocks_clean`
(src/app.py lines 207-231) at jump threshold `th`.  The source compares
`sqrt (dx*dx+dy*dy) > th`; the embedding compares `dx*dx+dy*dy > th*th`,
which agrees for the nonnegative default threshold 45.0. -/
def extractStep (th : ℚ) (s : ExtractState) (r : StitchRec) : ExtractState :=
  let x := r.1
  let y := r.2.1
  let cmd := r.2.2
  if cmd = 0 then
    match s.last with
    | none => { s with last := some (x, y) }
    | some (x0, y0) =>
      if dist2 (x0, y0) (x, y) > th * th then
        { s with last := some (x, y) }
      else
        { s with current := s.current ++ [(x0, y0, x, y)], last := some (x, y) }
  else if cmd = 5 then
    if s.current = [] then
      { s with last := none }
    else
      { blocks := s.blocks ++ [s.current], current := [], last := none }
  else
    { s with last := none }

/-- `pattern_to_blocks_clean` (src/app.py lines 202-236): fold the loop body
over the stitch list, then flush a nonempty running block. -/
def pattern_to_blocks_clean (th : ℚ) (stitches : List StitchRec) : List (List Seg) :=
  let s := stitches.foldl (extractStep th) ⟨[], [], none⟩
  if s.current = [] then s.blocks else s.blocks ++ [s.current]

/-- `get_block_count` (src/app.py lines 283-285). -/
def get_block_count (th : ℚ) (stitches : List StitchRec) : ℕ :=
  min (pattern_to_blocks_clean th stitches).length MAX_BLOCKS

/-- Number of COLOR_CHANGE records (command code 5) in a stitch list. -/
def colorChangeCount (stitches : List StitchRec) : ℕ :=
  (stitches.filter (fun r => r.2.2 = 5)).length

example :
    pattern_to_blocks_clean 45 [(0, 0, 0), (1, 0, 0), (2, 0, 0)] =
      [[(0, 0, 1, 0), (1, 0, 2, 0)]] := by
  norm_num [pattern_to_blocks_clean, extractStep, dist2, List.cons_ne_nil]

example : pattern_to_blocks_clean 45 [(0, 0, 0), (100, 0, 0), (101, 0, 0)] =
    [[(100, 0, 101, 0)]] := by
  norm_num [pattern_to_blocks_clean, extractStep, dist2]

example : get_block_count 45 [(0, 0, 5), (0, 0, 5)] = 0 := by
  norm_num [get_block_count, pattern_to_blocks_clean, extractStep, MAX_BLOCKS]

/-! ### Hex color parsing (src/app.py lines 120-135) -/

/-- Characters stripped by Python `str.strip()`: the full `str.isspace()`
set — ASCII whitespace 0x09-0x0D and 0x20, the separators 0x1C-0x1F, NEL
0x85, NBSP 0xA0, and the Unicode space characters 0x1680, 0x2000-0x200A,
0x2028, 0x2029, 0x202F, 0x205F, 0x3000. -/
def isPySpace (c : Char) : Bool :=
  c = '\x09' || c = '\x0a' || c = '\x0b' || c = '\x0c' || c = '\x0d' ||
  c = '\x1c' || c = '\x1d' || c = '\x1e' || c = '\x1f' || c = ' ' ||
  c = '\u0085' || c = '\u00a0' || c = '\u1680' ||
  c = '\u2000' || c = '\u2001' || c = '\u2002' || c = '\u2003' ||
  c = '\u2004' || c = '\u2005' || c = '\u2006' || c = '\u2007' ||
  c = '\u2008' || c = '\u2009' || c = '\u200a' ||
  c = '\u2028' || c = '\u2029' || c = '\u202f' || c = '\u205f' || c = '\u3000'

/-- Python `s.strip()`: drop whitespace from both ends. -/
def pyStrip (l : List Char) : List Char :=
  ((l.dropWhile isPySpace).reverse.dropWhile isPySpace).reverse

/-- Python `s.lstrip("#")`: drop every leading `'#'`. -/
def lstripHash (l : List Char) : List Char :=
  l.dropWhile (fun c => c = '#')

/-- Membership in the character class `[0-9a-fA-F]` of the source regex. -/
def isHexDigitChar (c : Char) : Bool :=
  ('0' ≤ c && c ≤ '9') || ('a' ≤ c && c ≤ 'f') || ('A' ≤ c && c ≤ 'F')

/-- Value of one hex digit (0 for non-digits, which never occurs after the
validity check). -/
def hexVal (c : Char) : ℕ :=
  if '0' ≤ c && c ≤ '9' then c.toNat - '0'.toNat
  else if 'a' ≤ c && c ≤ 'f' then c.toNat - 'a'.toNat + 10
  else if 'A' ≤ c && c ≤ 'F' then c.toNat - 'A'.toNat + 10
  else 0

/-- The 3-digit shorthand expansion `h = "".join([c * 2 for c in h])`
applied when `len(h) == 3`. -/
def hexExpand3 (l : List Char) : List Char :=
  if l.length = 3 then l.flatMap (fun c => [c, c]) else l

instance instDecEqExcept {ε α : Type} [DecidableEq ε] [DecidableEq α] :
    DecidableEq (Except ε α) := fun x y =>
  match x, y with
  | .ok a, .ok b =>
    if h : a = b then .isTrue (by rw [h]) else .isFalse (fun hh => h (Except.ok.inj hh))
  | .error a, .error b =>
    if h : a = b then .isTrue (by rw [h]) else .isFalse (fun hh => h (Except.error.inj hh))
  | .ok _, .error _ => .isFalse (fun hh => Except.noConfusion hh)
  | .error _, .ok _ => .isFalse (fun hh => Except.noConfusion hh)

/-- `hex_to_rgb` (src/app.py lines 120-126): strip whitespace, strip leading
`'#'`s, expand a 3-char shorthand, then require exactly 6 hex digits;
returns the `(r, g, b)` triple or the 400 `Invalid color` error. -/
def hex_to_rgb (s : String) : Except HTTPError (ℕ × ℕ × ℕ) :=
  let h := hexExpand3 (lstripHash (pyStrip s.toList))
  if h.length = 6 && h.all isHexDigitChar then
    .ok (16 * hexVal (h.getD 0 '0') + hexVal (h.getD 1 '0'),
         16 * hexVal (h.getD 2 '0') + hexVal (h.getD 3 '0'),
         16 * hexVal (h.getD 4 '0') + hexVal (h.getD 5 '0'))
  else
    .error ⟨400, "Invalid color: " ++ s⟩

/-- `hex_to_rgb_int` (src/app.py lines 129-135): same validation, returns
`int(h, 16)`, i.e. `0xRRGGBB`. -/
def hex_to_rgb_int (s : String) : Except HTTPError ℕ :=
  let h := hexExpand3 (lstripHash (pyStrip s.toList))
  if h.length = 6 && h.all isHexDigitChar then
    .ok (h.foldl (fun a c => 16 * a + hexVal c) 0)
  else
    .error ⟨400, "Invalid color: " ++ s⟩

example : hex_to_rgb "fff" = .ok (255, 255, 255) := by decide
example : hex_to_rgb "#1a2b3c" = .ok (26, 43, 60) := by decide
example : hex_to_rgb "zzz" = .error ⟨400, "Invalid color: zzz"⟩ := by decide
example : hex_to_rgb "##fff" = .ok (255, 255, 255) := by decide
example : hex_to_rgb "\x1cfff" = .ok (255, 255, 255) := by decide
example : hex_to_rgb " fff " = .ok (255, 255, 255) := by decide
example : hex_to_rgb_int "#ff0000" = .ok 16711680 := by decide

/-! ### Canvas Normalizer (src/app.py lines 239-269) -/

/-- The endpoint collection loop of `normalize_blocks`: for every segment,
both endpoints in order. -/
def collect_pts (blocks : List (List Seg)) : List (ℚ × ℚ) :=
  blocks.flatMap (fun b => b.flatMap (fun s => [(s.1, s.2.1), (s.2.2.1, s.2.2.2)]))

/-- Python `min(xs)` for a nonempty list. -/
def listMin (l : List ℚ) : ℚ := l.foldl min (l.headD 0)

/-- Python `max(xs)` for a nonempty list. -/
def listMax (l : List ℚ) : ℚ := l.foldl max (l.headD 0)

/-- Python's `a or b` on floats: `b` when `a == 0`, else `a`
(used by the source as `w = (maxx - minx) or 1`). -/
def pyOr (a b : ℚ) : ℚ := if a = 0 then b else a

/-- `normalize_blocks` (src/app.py lines 239-269). -/
def normalize_blocks (blocks : List (List Seg)) (padding canvas : ℚ) :
    List (List Seg) × ℚ :=
  let pts := collect_pts blocks
  if pts = [] then (blocks, canvas)
  else
    let xs := pts.map Prod.fst
    let ys := pts.map Prod.snd
    let minx := listMin xs
    let maxx := listMax xs
    let miny := listMin ys
    let maxy := listMax ys
    let w := pyOr (maxx - minx) 1
    let h := pyOr (maxy - miny) 1
    let scale := (canvas - 2 * padding) / max w h
    let out := blocks.map (fun b => b.map (fun seg =>
      ((seg.1 - minx) * scale + padding,
       (seg.2.1 - miny) * scale + padding,
       (seg.2.2.1 - minx) * scale + padding,
       (seg.2.2.2 - miny) * scale + padding)))
    (out, canvas)

/-- The "width used in the scale computation" of `normalize_blocks`
(src/app.py line 253): `w = (maxx - minx) or 1`. -/
def norm_w (pts : List (ℚ × ℚ)) : ℚ :=
  pyOr (listMax (pts.map Prod.fst) - listMin (pts.map Prod.fst)) 1

/-- The "height used in the scale computation" of `normalize_blocks`
(src/app.py line 254): `h = (maxy - miny) or 1`. -/
def norm_h (pts : List (ℚ × ℚ)) : ℚ :=
  pyOr (listMax (pts.map Prod.snd) - listMin (pts.map Prod.snd)) 1

/-- Modelled from the spec sentence for claim comparison only: the claimed
`width = max(maxx − minx, 1)`. -/
def spec_norm_w (pts : List (ℚ × ℚ)) : ℚ :=
  max (listMax (pts.map Prod.fst) - listMin (pts.map Prod.fst)) 1

/-! ### Raster Renderer color resolution (src/app.py lines 294-307) -/

/-- Lowercase hex digit for `n < 16`. -/
def hexDigitChar (n : ℕ) : Char :=
  if n < 10 then Char.ofNat ('0'.toNat + n) else Char.ofNat ('a'.toNat + n - 10)

/-- Python `f"{c:06x}"` for `c < 16^6`: six zero-padded lowercase hex digits. -/
def toHex6 (n : ℕ) : String :=
  ⟨(List.range 6).map (fun i => hexDigitChar (n / 16 ^ (5 - i) % 16))⟩

/-- `extract_thread_colors` (src/app.py lines 272-280): format each thread's
24-bit color as `#rrggbb` and truncate to `MAX_BLOCKS` entries.  A thread is
modelled by its integer `color` attribute. -/
def extract_thread_colors (threadlist : List ℕ) : List String :=
  (threadlist.map (fun t => "#" ++ toHex6 (t % 16 ^ 6))).take MAX_BLOCKS

/-- The per-block color resolution of `render_preview_png`
(src/app.py lines 301-307): override color at `i` if present, else fallback
thread color at `i` if present, else black. -/
def resolve_color (colors_hex fallback : List String) (i : ℕ) :
    Except HTTPError (ℕ × ℕ × ℕ) :=
  if i < colors_hex.length then hex_to_rgb (colors_hex.getD i "")
  else if i < fallback.length then hex_to_rgb (fallback.getD i "")
  else .ok (0, 0, 0)

/-! ### Recolor Writer (src/app.py lines 325-339) -/

/-- The assignment loop of `generate_recolored_pes` (src/app.py lines
331-333): `for i in range(n): pattern.threadlist[i].color =
hex_to_rgb_int(colors_hex[i])`, processing indices `0 .. n-1` in order and
propagating the first parse failure. -/
def recolorLoop (tl : List ℕ) (colors_hex : List String) : ℕ → Except HTTPError (List ℕ)
  | 0 => .ok tl
  | n + 1 =>
    match recolorLoop tl colors_hex n with
    | .error e => .error e
    | .ok acc =>
      match hex_to_rgb_int (colors_hex.getD n "") with
      | .error e => .error e
      | .ok v => .ok (acc.set n v)

/-- `generate_recolored_pes` (src/app.py lines 325-339), restricted to its
pattern mutation: raise 500 on an empty thread list, otherwise overwrite
`threadlist[i].color` with `hex_to_rgb_int(colors_hex[i])` for
`i < min(len(threadlist), len(colors_hex))` and return the mutated thread
list (which the source then serializes with `write`). -/
def generate_recolored_pes (threadlist : List ℕ) (colors_hex : List String) :
    Except HTTPError (List ℕ) :=
  if threadlist = [] then .error ⟨500, "Master PES has no thread list."⟩
  else recolorLoop threadlist colors_hex (min threadlist.length colors_hex.length)

example : extract_thread_colors [16711680, 255] = ["#ff0000", "#0000ff"] := by decide
example : generate_recolored_pes [1, 2, 3] ["#ff0000", "#00ff00"] =
    .ok [16711680, 65280, 3] := by decide
example : generate_recolored_pes [] ["#ff0000"] =
    .error ⟨500, "Master PES has no thread list."⟩ := by decide
example : resolve_color [] ["#00ff00"] 0 = .ok (0, 255, 0) := by decide

/-! ### Supporting lemmas -/

theorem dist2_nonneg (p q : ℚ × ℚ) : 0 ≤ dist2 p q :=
  add_nonneg (mul_self_nonneg _) (mul_self_nonneg _)

theorem sqrt_dist2_le_iff (p q : ℚ × ℚ) :
    Real.sqrt ((dist2 p q : ℚ) : ℝ) ≤ 45 ↔ dist2 p q ≤ 45 * 45 := by
  rw [Real.sqrt_le_left (by norm_num : (0 : ℝ) ≤ 45)]
  rw [show ((45 : ℝ) ^ 2) = (((45 * 45 : ℚ)) : ℝ) by norm_num]
  exact Rat.cast_le

/-! ### Claims -/

/-- **C1.** On a STITCH record with a defined last point, the loop of the
Geometry Extractor always updates the last point to the current point and
never touches the emitted blocks; a segment from the last point to the
current point is appended to the current block exactly when the Euclidean
distance between the points is at most the jump threshold 45.0 (so a move
of distance exactly 45.0 is drawn), and nothing is appended when the
distance strictly exceeds 45.0. -/
theorem C1_stitch_jump_threshold (s : ExtractState) (x0 y0 x y : ℚ)
    (h : s.last = some (x0, y0)) :
    ((extractStep 45 s (x, y, 0)).last = some (x, y)) ∧
    ((extractStep 45 s (x, y, 0)).blocks = s.blocks) ∧
    (Real.sqrt ((dist2 (x0, y0) (x, y) : ℚ) : ℝ) ≤ 45 →
      (extractStep 45 s (x, y, 0)).current = s.current ++ [(x0, y0, x, y)]) ∧
    ((45 : ℝ) < Real.sqrt ((dist2 (x0, y0) (x, y) : ℚ) : ℝ) →
      (extractStep 45 s (x, y, 0)).current = s.current) := by
  have hkey := sqrt_dist2_le_iff (x0, y0) (x, y)
  by_cases hgt : dist2 (x0, y0) (x, y) > 45 * 45
  · simp only [extractStep, h, if_pos rfl]
    exact ⟨by simp [hgt], by simp [hgt],
      fun hc => absurd (hkey.mp hc) (not_le.mpr hgt), fun _ => by simp [hgt]⟩
  · have hs : Real.sqrt ((dist2 (x0, y0) (x, y) : ℚ) : ℝ) ≤ 45 :=
      hkey.mpr (not_lt.mp hgt)
    simp only [extractStep, h, if_pos rfl]
    exact ⟨by simp [hgt], by simp [hgt],
      fun _ => by simp [hgt], fun hc => absurd hs (not_le.mpr hc)⟩

/-- Witness for C1 at a move of distance exactly 45 (from `(0,0)` to
`(27,36)`, since `27² + 36² = 2025 = 45²`): the segment is drawn. -/
theorem C1_stitch_jump_threshold_witness :
    (extractStep 45 ⟨[], [], some (0, 0)⟩ (27, 36, 0)).current =
      [(0, 0, 27, 36)] := by
  have h := (C1_stitch_jump_threshold ⟨[], [], some (0, 0)⟩ 0 0 27 36 rfl).2.2.1
  have hd : Real.sqrt ((dist2 ((0 : ℚ), (0 : ℚ)) ((27 : ℚ), (36 : ℚ)) : ℚ) : ℝ) ≤ 45 := by
    rw [show ((dist2 ((0 : ℚ), (0 : ℚ)) ((27 : ℚ), (36 : ℚ)) : ℚ) : ℝ) = (45 : ℝ) ^ 2 by
      norm_num [dist2]]
    rw [Real.sqrt_sq (by norm_num : (0 : ℝ) ≤ 45)]
  simpa using h hd

/-- Case analysis of one extractor step: either the emitted blocks are
untouched and the running block is unchanged or grows by one segment, or
the record is a COLOR_CHANGE flushing a nonempty running block. -/
theorem extractStep_cases (th : ℚ) (s : ExtractState) (r : StitchRec) :
    ((extractStep th s r).blocks = s.blocks ∧
      ((extractStep th s r).current = s.current ∨
        ∃ g, (extractStep th s r).current = s.current ++ [g])) ∨
    (r.2.2 = 5 ∧ s.current ≠ [] ∧
      (extractStep th s r).blocks = s.blocks ++ [s.current] ∧
      (extractStep th s r).current = []) := by
  obtain ⟨x, y, cmd⟩ := r
  simp only [extractStep]
  by_cases h0 : cmd = 0
  · simp only [h0, if_pos rfl]
    cases hl : s.last with
    | none => exact Or.inl ⟨rfl, Or.inl rfl⟩
    | some p =>
      by_cases hgt : dist2 p (x, y) > th * th
      · simp only [if_pos hgt]
        exact Or.inl ⟨rfl, Or.inl rfl⟩
      · simp only [if_neg hgt]
        exact Or.inl ⟨rfl, Or.inr ⟨_, rfl⟩⟩
  · simp only [if_neg h0]
    by_cases h5 : cmd = 5
    · simp only [h5, if_pos rfl]
      by_cases hc : s.current = []
      · simp only [if_pos hc]
        refine Or.inl ⟨?_, Or.inl ?_⟩ <;> trivial
      · simp only [if_neg hc]
        refine Or.inr ⟨?_, hc, ?_, ?_⟩ <;> first | exact h5 | trivial
    · simp only [if_neg h5]
      refine Or.inl ⟨?_, Or.inl ?_⟩ <;> trivial

theorem foldl_blocks_nonempty (th : ℚ) (l : List StitchRec) (s : ExtractState)
    (hinv : ∀ b ∈ s.blocks, b ≠ []) :
    ∀ b ∈ (l.foldl (extractStep th) s).blocks, b ≠ [] := by
  induction l generalizing s with
  | nil => exact hinv
  | cons r l ih =>
    apply ih
    intro b hb
    rcases extractStep_cases th s r with ⟨hb', _⟩ | ⟨_, hex, hb', _⟩
    · exact hinv b (hb' ▸ hb)
    · rw [hb'] at hb
      rcases List.mem_append.mp hb with h1 | h1
      · exact hinv b h1
      · rw [List.mem_singleton.mp h1]
        exact hex

/-- **C10.** Every block in the Geometry Extractor's output list is
non-empty: empty running blocks (e.g. from consecutive COLOR_CHANGE records
or from a COLOR_CHANGE followed only by non-drawing commands) are dropped,
never emitted as placeholders. -/
theorem C10_blocks_nonempty (th : ℚ) (stitches : List StitchRec) :
    ∀ b ∈ pattern_to_blocks_clean th stitches, b ≠ [] := by
  intro b hb
  unfold pattern_to_blocks_clean at hb
  set sf := stitches.foldl (extractStep th) ⟨[], [], none⟩ with hsf
  have hfold := foldl_blocks_nonempty th stitches ⟨[], [], none⟩ (by simp)
  by_cases hc : sf.current = []
  · rw [if_pos hc] at hb
    exact hfold b hb
  · rw [if_neg hc] at hb
    rcases List.mem_append.mp hb with h1 | h1
    · exact hfold b h1
    · rw [List.mem_singleton.mp h1]
      exact hc

/-- Witness for C10: a concrete design with consecutive COLOR_CHANGEs
produces a block list whose (only) member is non-empty. -/
theorem C10_blocks_nonempty_witness :
    [((0 : ℚ), (0 : ℚ), (1 : ℚ), (0 : ℚ))] ∈
        pattern_to_blocks_clean 45 [(0, 0, 5), (0, 0, 5), (0, 0, 0), (1, 0, 0)] ∧
      [((0 : ℚ), (0 : ℚ), (1 : ℚ), (0 : ℚ))] ≠ [] := by
  have hmem : [((0 : ℚ), (0 : ℚ), (1 : ℚ), (0 : ℚ))] ∈
      pattern_to_blocks_clean 45 [(0, 0, 5), (0, 0, 5), (0, 0, 0), (1, 0, 0)] := by
    rw [show pattern_to_blocks_clean 45 [(0, 0, 5), (0, 0, 5), (0, 0, 0), (1, 0, 0)] =
        [[((0 : ℚ), (0 : ℚ), (1 : ℚ), (0 : ℚ))]] by
      norm_num [pattern_to_blocks_clean, extractStep, dist2, List.cons_ne_nil]]
    simp
  exact ⟨hmem, C10_blocks_nonempty 45 _ _ hmem⟩

/-- 1 when the running block is non-empty, else 0: the contribution of the
running block to the final block count. -/
def curBit (s : ExtractState) : ℕ := if s.current = [] then 0 else 1

theorem colorChangeCount_cons (r : StitchRec) (l : List StitchRec) :
    colorChangeCount (r :: l) =
      (if r.2.2 = 5 then 1 else 0) + colorChangeCount l := by
  by_cases h5 : r.2.2 = 5 <;>
    simp [colorChangeCount, List.filter_cons, h5, Nat.add_comm]

theorem foldl_blocks_count (th : ℚ) (l : List StitchRec) (s : ExtractState)
    (k : ℕ) (hn : s.blocks.length ≤ k) (hm : s.blocks.length + curBit s ≤ k + 1) :
    (l.foldl (extractStep th) s).blocks.length ≤ k + colorChangeCount l ∧
      (l.foldl (extractStep th) s).blocks.length + curBit (l.foldl (extractStep th) s) ≤
        k + colorChangeCount l + 1 := by
  induction l generalizing s k with
  | nil =>
    simpa [colorChangeCount] using And.intro hn hm
  | cons r l ih =>
    rw [List.foldl_cons, colorChangeCount_cons]
    have hbit : curBit (extractStep th s r) ≤ 1 := by
      unfold curBit
      split <;> omega
    rcases extractStep_cases th s r with ⟨hb, hcur⟩ | ⟨h5, hne, hb, hcur⟩
    · have hn' : (extractStep th s r).blocks.length ≤ k := hb ▸ hn
      have hm' : (extractStep th s r).blocks.length + curBit (extractStep th s r) ≤ k + 1 := by
        rcases hcur with hcc | ⟨g, hcc⟩
        · have : curBit (extractStep th s r) = curBit s := by unfold curBit; rw [hcc]
          omega
        · omega
      have := ih (extractStep th s r) k hn' hm'
      have hcc0 : (0 : ℕ) ≤ if r.2.2 = 5 then 1 else 0 := by omega
      split <;> omega
    · have hcb : curBit s = 1 := by unfold curBit; rw [if_neg hne]
      have hn' : (extractStep th s r).blocks.length ≤ k + 1 := by
        rw [hb]
        simp only [List.length_append, List.length_singleton]
        omega
      have hm' : (extractStep th s r).blocks.length + curBit (extractStep th s r) ≤ k + 1 + 1 := by
        have : curBit (extractStep th s r) = 0 := by unfold curBit; rw [if_pos hcur]
        omega
      have := ih (extractStep th s r) (k + 1) hn' hm'
      rw [if_pos h5]
      omega

/-- Final block count of the extractor in terms of the ending fold state. -/
theorem pattern_to_blocks_length (th : ℚ) (stitches : List StitchRec) :
    (pattern_to_blocks_clean th stitches).length =
      (stitches.foldl (extractStep th) ⟨[], [], none⟩).blocks.length +
        curBit (stitches.foldl (extractStep th) ⟨[], [], none⟩) := by
  unfold pattern_to_blocks_clean curBit
  split <;> simp_all

/-- The extractor never produces more blocks than color changes + 1. -/
theorem blocks_le_colorChanges (th : ℚ) (stitches : List StitchRec) :
    (pattern_to_blocks_clean th stitches).length ≤ colorChangeCount stitches + 1 := by
  have h := foldl_blocks_count th stitches ⟨[], [], none⟩ 0 (by simp)
    (by simp [curBit])
  rw [pattern_to_blocks_length]
  omega

/-- **C3 (counterexample).** The claim that the reported block count equals
`min(color-change count + 1, 20)` fails on a design of two consecutive
COLOR_CHANGE records and no stitches: the code reports 0 blocks while the
claimed formula gives `min(2 + 1, 20) = 3`. -/
theorem C3_count_formula_counterexample :
    get_block_count 45 [(0, 0, 5), (0, 0, 5)] = 0 ∧
      min (colorChangeCount [((0 : ℚ), (0 : ℚ), (5 : ℕ)), (0, 0, 5)] + 1) MAX_BLOCKS = 3 ∧
      (0 : ℕ) ≠ 3 := by
  refine ⟨?_, by decide, by decide⟩
  norm_num [get_block_count, pattern_to_blocks_clean, extractStep, MAX_BLOCKS]

/-- **C3 (amended).** The block count reported to callers equals
`min(number of extracted non-empty blocks, 20)`; it is always at most
`min(color-change count + 1, 20)` — with equality whenever no running block
is dropped empty — and in particular never exceeds 20, for any design
(e.g. one with 25 color-change boundaries). -/
theorem C3_block_count_capped (th : ℚ) (stitches : List StitchRec) :
    get_block_count th stitches =
        min (pattern_to_blocks_clean th stitches).length MAX_BLOCKS ∧
      get_block_count th stitches ≤ min (colorChangeCount stitches + 1) MAX_BLOCKS ∧
      get_block_count th stitches ≤ 20 := by
  refine ⟨rfl, ?_, min_le_right _ _⟩
  exact le_min (min_le_of_left_le (blocks_le_colorChanges th stitches)) (min_le_right _ _)

/-- A list of points turned into pure-STITCH records. -/
def stitchOnly (ps : List (ℚ × ℚ)) : List StitchRec :=
  ps.map (fun p => (p.1, p.2, 0))

/-- The polyline segments from `p` through the points `ps`. -/
def mkSegs : (ℚ × ℚ) → List (ℚ × ℚ) → List Seg
  | _, [] => []
  | p, q :: qs => (p.1, p.2, q.1, q.2) :: mkSegs q qs

/-- Every consecutive hop (starting from `p`) has squared distance at most
`th²`, i.e. Euclidean distance at most the jump threshold. -/
def chainClose (th : ℚ) : (ℚ × ℚ) → List (ℚ × ℚ) → Prop
  | _, [] => True
  | p, q :: qs => dist2 p q ≤ th * th ∧ chainClose th q qs

theorem mkSegs_length (p : ℚ × ℚ) (ps : List (ℚ × ℚ)) :
    (mkSegs p ps).length = ps.length := by
  induction ps generalizing p with
  | nil => rfl
  | cons q qs ih => simp [mkSegs, ih]

theorem stitchOnly_cons (p : ℚ × ℚ) (ps : List (ℚ × ℚ)) :
    stitchOnly (p :: ps) = (p.1, p.2, 0) :: stitchOnly ps := rfl

theorem foldl_stitch_run (th : ℚ) (ps : List (ℚ × ℚ)) :
    ∀ (p : ℚ × ℚ) (s : ExtractState), s.last = some p → chainClose th p ps →
      (stitchOnly ps).foldl (extractStep th) s =
        ⟨s.blocks, s.current ++ mkSegs p ps, some (ps.foldl (fun _ q => q) p)⟩ := by
  induction ps with
  | nil =>
    intro p s hl _
    obtain ⟨bs, cur, last⟩ := s
    simp only [ExtractState.last] at hl
    simp [stitchOnly, mkSegs, hl]
  | cons q qs ih =>
    intro p s hl hc
    obtain ⟨hd, hcl⟩ := hc
    obtain ⟨px, py⟩ := p
    obtain ⟨qx, qy⟩ := q
    have hstep : extractStep th s (qx, qy, 0) =
        ⟨s.blocks, s.current ++ [(px, py, qx, qy)], some (qx, qy)⟩ := by
      simp only [extractStep, hl]
      rw [if_neg (not_lt.mpr hd)]
      simp
    have hrec := ih (qx, qy) (extractStep th s (qx, qy, 0)) (by rw [hstep]) hcl
    rw [stitchOnly_cons, List.foldl_cons, hrec, hstep]
    simp [mkSegs, List.append_assoc]

/-- **C5 (counterexample).** The claim fails on a sequence of a single
STITCH (whose consecutive-distance condition holds vacuously): the
Geometry Extractor produces 0 blocks, not 1. -/
theorem C5_single_stitch_counterexample :
    (pattern_to_blocks_clean 45 (stitchOnly [((0 : ℚ), (0 : ℚ))])).length = 0 ∧
      (0 : ℕ) ≠ 1 := by
  refine ⟨?_, by decide⟩
  norm_num [pattern_to_blocks_clean, stitchOnly, extractStep]

/-- **C5 (amended).** For every stitch sequence of at least two points
consisting only of STITCH commands in which each consecutive pair is within
the jump threshold, the Geometry Extractor produces exactly 1 block whose
segment count is the number of stitches minus 1 (for fewer than two
stitches it produces no block at all). -/
theorem C5_straight_run (th : ℚ) (p : ℚ × ℚ) (ps : List (ℚ × ℚ))
    (hne : ps ≠ []) (hc : chainClose th p ps) :
    pattern_to_blocks_clean th (stitchOnly (p :: ps)) = [mkSegs p ps] ∧
      (pattern_to_blocks_clean th (stitchOnly (p :: ps))).length = 1 ∧
      ((pattern_to_blocks_clean th (stitchOnly (p :: ps))).map List.length).sum =
        (stitchOnly (p :: ps)).length - 1 := by
  obtain ⟨px, py⟩ := p
  have h0 : extractStep th ⟨[], [], none⟩ (px, py, 0) = ⟨[], [], some (px, py)⟩ := by
    simp [extractStep]
  have hrun := foldl_stitch_run th ps (px, py) ⟨[], [], some (px, py)⟩ rfl hc
  have hsegne : mkSegs (px, py) ps ≠ [] := by
    intro hnil
    have := mkSegs_length (px, py) ps
    rw [hnil] at this
    exact hne (List.eq_nil_of_length_eq_zero this.symm)
  have hfold : (stitchOnly ((px, py) :: ps)).foldl (extractStep th) ⟨[], [], none⟩ =
      ⟨[], mkSegs (px, py) ps, some (ps.foldl (fun _ q => q) (px, py))⟩ := by
    rw [show stitchOnly ((px, py) :: ps) = (px, py, 0) :: stitchOnly ps by simp [stitchOnly]]
    rw [List.foldl_cons, h0, hrun]
    simp
  have hblocks : pattern_to_blocks_clean th (stitchOnly ((px, py) :: ps)) =
      [mkSegs (px, py) ps] := by
    unfold pattern_to_blocks_clean
    rw [hfold]
    simp [hsegne]
  refine ⟨hblocks, by rw [hblocks]; rfl, ?_⟩
  rw [hblocks]
  simp [mkSegs_length, stitchOnly]

/-- Witness for C5 at three collinear unit-spaced stitches: one block of two
segments. -/
theorem C5_straight_run_witness :
    (pattern_to_blocks_clean 45 (stitchOnly [((0 : ℚ), (0 : ℚ)), (1, 0), (2, 0)])).length = 1 ∧
      ((pattern_to_blocks_clean 45
          (stitchOnly [((0 : ℚ), (0 : ℚ)), (1, 0), (2, 0)])).map List.length).sum = 2 := by
  have h := C5_straight_run 45 (0, 0) [(1, 0), (2, 0)] (by simp)
    (by norm_num [chainClose, dist2])
  exact ⟨h.2.1, by simpa [stitchOnly] using h.2.2⟩

/-- **C4.** During rendering, the drawing color for block index `i` is
resolved as: the override color at index `i` when the override list has an
entry there; otherwise the fallback thread color at index `i` when the
fallback (and, for block indices below `MAX_BLOCKS`, equivalently the
pattern's thread list) has an entry there; otherwise black `(0,0,0)`.
Consequently an empty override list resolves every block to the pattern's
native thread color (or black past the thread list). -/
theorem C4_color_resolution (colors_hex fallback : List String) (i : ℕ) :
    (i < colors_hex.length →
      resolve_color colors_hex fallback i = hex_to_rgb (colors_hex.getD i "")) ∧
    (colors_hex.length ≤ i → i < fallback.length →
      resolve_color colors_hex fallback i = hex_to_rgb (fallback.getD i "")) ∧
    (colors_hex.length ≤ i → fallback.length ≤ i →
      resolve_color colors_hex fallback i = .ok (0, 0, 0)) ∧
    (resolve_color [] fallback i =
      if i < fallback.length then hex_to_rgb (fallback.getD i "") else .ok (0, 0, 0)) ∧
    (∀ tl : List ℕ, i < MAX_BLOCKS →
      (i < (extract_thread_colors tl).length ↔ i < tl.length)) := by
  refine ⟨fun h => by simp [resolve_color, h],
    fun h1 h2 => by simp [resolve_color, not_lt.mpr h1, h2],
    fun h1 h2 => by simp [resolve_color, not_lt.mpr h1, not_lt.mpr h2],
    by simp [resolve_color],
    fun tl hmax => ?_⟩
  unfold extract_thread_colors MAX_BLOCKS at *
  simp only [List.length_take, List.length_map, lt_min_iff]
  omega

/-- Witness for C4: with an empty override list the first block resolves to
the pattern's native (fallback) thread color. -/
theorem C4_color_resolution_witness :
    resolve_color [] ["#00ff00"] 0 = .ok (0, 255, 0) := by
  have h := (C4_color_resolution [] ["#00ff00"] 0).2.1 (by decide) (by decide)
  rw [h]
  decide

/-- **C7.** For a decoded pattern with an empty thread list, the Recolor
Writer fails with the "Master PES has no thread list." error (the spec's
Unprocessable case, raised by the source with HTTP status 500) before any
mutation or serialization: no `.ok` result — hence no written file and no
mutated thread list — is ever produced. -/
theorem C7_empty_threadlist_error (colors_hex : List String) :
    generate_recolored_pes [] colors_hex =
        .error ⟨500, "Master PES has no thread list."⟩ ∧
      ∀ r : List ℕ, generate_recolored_pes [] colors_hex ≠ .ok r := by
  have h : generate_recolored_pes [] colors_hex =
      .error ⟨500, "Master PES has no thread list."⟩ := by
    simp [generate_recolored_pes]
  exact ⟨h, fun r hr => Except.noConfusion (h ▸ hr)⟩

/-- Witness for C7 at a concrete color list. -/
theorem C7_empty_threadlist_error_witness :
    generate_recolored_pes [] ["#ff0000"] =
      .error ⟨500, "Master PES has no thread list."⟩ :=
  (C7_empty_threadlist_error ["#ff0000"]).1

theorem recolorLoop_ok (tl : List ℕ) (colors_hex : List String) (cs : List ℕ) :
    ∀ n : ℕ, n ≤ tl.length →
      (∀ i < n, hex_to_rgb_int (colors_hex.getD i "") = .ok (cs.getD i 0)) →
      ∃ out, recolorLoop tl colors_hex n = .ok out ∧ out.length = tl.length ∧
        (∀ i < n, out[i]? = some (cs.getD i 0)) ∧
        (∀ i, n ≤ i → out[i]? = tl[i]?) := by
  intro n
  induction n with
  | zero =>
    intro _ _
    exact ⟨tl, rfl, rfl, fun i hi => absurd hi (Nat.not_lt_zero i), fun i _ => rfl⟩
  | succ n ih =>
    intro hn hparse
    obtain ⟨out, hok, hlen, hlt, hge⟩ :=
      ih (Nat.le_of_succ_le hn) (fun i hi => hparse i (Nat.lt_succ_of_lt hi))
    refine ⟨out.set n (cs.getD n 0), ?_, by simp [hlen], ?_, ?_⟩
    · have hp := hparse n (Nat.lt_succ_self n)
      simp only [recolorLoop, hok]
      rw [hp]
    · intro i hi
      rcases Nat.lt_succ_iff_lt_or_eq.mp hi with h | h
      · rw [List.getElem?_set_ne (by omega)]
        exact hlt i h
      · subst h
        exact List.getElem?_set_eq_of_lt _ (by omega)
    · intro i hi
      rw [List.getElem?_set_ne (by omega)]
      exact hge i (by omega)

/-- **C8.** For a non-empty thread list of length `T` and a supplied color
list of length `C` whose first `min(T, C)` entries parse to the values
`cs`, the Recolor Writer succeeds and returns a thread list of unchanged
length in which exactly the entries at indices `0 .. min(T, C) - 1` carry
the supplied (parsed) colors, and every entry at index `min(T, C)` and
beyond keeps its original color. -/
theorem C8_recolor_overwrites_prefix (tl : List ℕ) (colors_hex : List String)
    (cs : List ℕ) (hne : tl ≠ [])
    (hparse : ∀ i < min tl.length colors_hex.length,
      hex_to_rgb_int (colors_hex.getD i "") = .ok (cs.getD i 0)) :
    ∃ out, generate_recolored_pes tl colors_hex = .ok out ∧
      out.length = tl.length ∧
      (∀ i < min tl.length colors_hex.length, out[i]? = some (cs.getD i 0)) ∧
      (∀ i, min tl.length colors_hex.length ≤ i → out[i]? = tl[i]?) := by
  obtain ⟨out, hok, hlen, hlt, hge⟩ :=
    recolorLoop_ok tl colors_hex cs (min tl.length colors_hex.length)
      (min_le_left _ _) hparse
  exact ⟨out, by simp [generate_recolored_pes, hne, hok], hlen, hlt, hge⟩

/-- Witness for C8: thread list `[1, 2, 3]` with two supplied colors — the
first two entries are overwritten, the third keeps its original color. -/
theorem C8_recolor_overwrites_prefix_witness :
    ∃ out, generate_recolored_pes [1, 2, 3] ["#ff0000", "#00ff00"] = .ok out ∧
      out.length = 3 ∧ out[0]? = some 16711680 ∧ out[1]? = some 65280 ∧
      out[2]? = some 3 := by
  obtain ⟨out, hok, hlen, hlt, hge⟩ :=
    C8_recolor_overwrites_prefix [1, 2, 3] ["#ff0000", "#00ff00"]
      [16711680, 65280] (by decide) (by decide)
  refine ⟨out, hok, hlen, ?_, ?_, ?_⟩
  · simpa using hlt 0 (by decide)
  · simpa using hlt 1 (by decide)
  · simpa using hge 2 (by decide)

/-! ### C9: hex parsing properties -/

theorem flatMap_double_length (l : List Char) :
    (l.flatMap (fun c => [c, c])).length = 2 * l.length := by
  induction l with
  | nil => rfl
  | cons c l ih => simp [ih]; omega

theorem flatMap_double_all (p : Char → Bool) (l : List Char) :
    (l.flatMap (fun c => [c, c])).all p = l.all p := by
  induction l with
  | nil => rfl
  | cons c l ih => cases hp : p c <;> simp [hp, ih]

theorem hexDigit_not_space (c : Char) (h : isHexDigitChar c = true) :
    isPySpace c = false := by
  cases hsp : isPySpace c
  · rfl
  · exfalso
    unfold isPySpace at hsp
    simp only [Bool.or_eq_true, decide_eq_true_eq] at hsp
    casesm* _ ∨ _ <;> subst_vars <;> exact absurd h (by decide)

theorem hexDigit_ne_hash (c : Char) (h : isHexDigitChar c = true) : ¬(c = '#') := by
  intro heq
  subst heq
  exact absurd h (by decide)

/-- The validity condition the code actually enforces: after stripping
surrounding whitespace and every leading `'#'`, the remainder is exactly 3
or 6 hex digits. -/
def hexValidAfterFullStrip (s : String) : Bool :=
  let h := lstripHash (pyStrip s.toList)
  (h.length = 3 || h.length = 6) && h.all isHexDigitChar

/-- Modelled from the spec for claim comparison only: validity per the
claim's words — "exactly 3 or 6 hex digits after stripping a leading '#'"
(one leading hash, no whitespace handling). -/
def claim_hex_valid (s : String) : Bool :=
  let h := match s.toList with
    | '#' :: t => t
    | t => t
  (h.length = 3 || h.length = 6) && h.all isHexDigitChar

/-- **C9 (counterexample).** `"##fff"` is not 3 or 6 hex digits after
stripping one leading `'#'`, so the claim requires an InvalidInput error;
the code strips every leading `'#'` and returns `(255,255,255)`. -/
theorem C9_hex_counterexample :
    claim_hex_valid "##fff" = false ∧ hex_to_rgb "##fff" = .ok (255, 255, 255) := by
  exact ⟨by decide, by decide⟩

theorem hex_invalid_error (s : String) (h : hexValidAfterFullStrip s = false) :
    hex_to_rgb s = .error ⟨400, "Invalid color: " ++ s⟩ := by
  unfold hexValidAfterFullStrip at h
  simp only [Bool.and_eq_false_iff, Bool.or_eq_false_iff, decide_eq_false_iff_not] at h
  have hcond : (decide ((hexExpand3 (lstripHash (pyStrip s.toList))).length = 6) &&
      (hexExpand3 (lstripHash (pyStrip s.toList))).all isHexDigitChar) = false := by
    unfold hexExpand3
    by_cases h3 : (lstripHash (pyStrip s.toList)).length = 3
    · rw [if_pos h3, flatMap_double_all]
      rcases h with ⟨hne3, _⟩ | hbad
      · exact absurd h3 hne3
      · rw [hbad, Bool.and_false]
    · rw [if_neg h3]
      rcases h with ⟨_, hne6⟩ | hbad
      · rw [decide_eq_false hne6, Bool.false_and]
      · rw [hbad, Bool.and_false]
  unfold hex_to_rgb
  simp only [hcond, Bool.false_eq_true, if_false]

theorem hex3_strip_id (a b c : Char) (ha : isHexDigitChar a = true)
    (hc : isHexDigitChar c = true) :
    lstripHash (pyStrip [a, b, c]) = [a, b, c] := by
  have ha1 : isPySpace a = false := hexDigit_not_space a ha
  have hc1 : isPySpace c = false := hexDigit_not_space c hc
  have ha2 : ¬(a = '#') := hexDigit_ne_hash a ha
  simp [pyStrip, lstripHash, List.dropWhile_cons, ha1, hc1, ha2]

theorem hex6_strip_id (a b c : Char) (ha : isHexDigitChar a = true)
    (hc : isHexDigitChar c = true) :
    lstripHash (pyStrip [a, a, b, b, c, c]) = [a, a, b, b, c, c] := by
  have ha1 : isPySpace a = false := hexDigit_not_space a ha
  have hc1 : isPySpace c = false := hexDigit_not_space c hc
  have ha2 : ¬(a = '#') := hexDigit_ne_hash a ha
  simp [pyStrip, lstripHash, List.dropWhile_cons, ha1, hc1, ha2]

theorem hex3_eq_hex6 (a b c : Char) (ha : isHexDigitChar a = true)
    (hb : isHexDigitChar b = true) (hc : isHexDigitChar c = true) :
    hex_to_rgb (String.mk [a, b, c]) = hex_to_rgb (String.mk [a, a, b, b, c, c]) := by
  unfold hex_to_rgb
  rw [show (String.mk [a, b, c]).toList = [a, b, c] from rfl,
    show (String.mk [a, a, b, b, c, c]).toList = [a, a, b, b, c, c] from rfl,
    hex3_strip_id a b c ha hc, hex6_strip_id a b c ha hc]
  unfold hexExpand3
  rw [if_pos (show ([a, b, c] : List Char).length = 3 from rfl),
    if_neg (show ¬([a, a, b, b, c, c] : List Char).length = 3 by simp)]
  rw [show ([a, b, c] : List Char).flatMap (fun ch => [ch, ch]) = [a, a, b, b, c, c] from rfl]
  have hcond : (decide (([a, a, b, b, c, c] : List Char).length = 6) &&
      ([a, a, b, b, c, c] : List Char).all isHexDigitChar) = true := by
    simp [List.all_cons, ha, hb, hc]
  rw [if_pos hcond]
  exact (if_pos hcond).symm

/-- **C9 (amended).** `hex_to_rgb "fff"` equals `hex_to_rgb "ffffff"` equals
`(255,255,255)`; every 3-hex-digit string parses the same as its doubled
6-digit expansion; and `hex_to_rgb` returns the InvalidInput error naming
the offending value for every input that is not exactly 3 or 6 hex digits
after stripping surrounding whitespace and all leading `'#'` characters
(the code strips every leading hash and whitespace, not just one hash). -/
theorem C9_hex_parsing :
    (hex_to_rgb "fff" = .ok (255, 255, 255) ∧
      hex_to_rgb "ffffff" = .ok (255, 255, 255)) ∧
    (∀ a b c : Char, isHexDigitChar a = true → isHexDigitChar b = true →
      isHexDigitChar c = true →
      hex_to_rgb (String.mk [a, b, c]) = hex_to_rgb (String.mk [a, a, b, b, c, c])) ∧
    (∀ s : String, hexValidAfterFullStrip s = false →
      hex_to_rgb s = .error ⟨400, "Invalid color: " ++ s⟩) :=
  ⟨⟨by decide, by decide⟩, hex3_eq_hex6, hex_invalid_error⟩

/-- Witness for C9: a concrete 3-digit/6-digit pair and a concrete rejected
string. -/
theorem C9_hex_parsing_witness :
    hex_to_rgb (String.mk ['1', '2', '3']) =
        hex_to_rgb (String.mk ['1', '1', '2', '2', '3', '3']) ∧
      hex_to_rgb "xyz" = .error ⟨400, "Invalid color: " ++ "xyz"⟩ :=
  ⟨C9_hex_parsing.2.1 '1' '2' '3' (by decide) (by decide) (by decide),
    C9_hex_parsing.2.2 "xyz" (by decide)⟩

/-! ### listMin / listMax facts -/

theorem foldl_min_le_init (l : List ℚ) : ∀ a : ℚ, l.foldl min a ≤ a := by
  induction l with
  | nil => intro a; exact le_refl a
  | cons x l ih => intro a; exact le_trans (ih (min a x)) (min_le_left a x)

theorem foldl_min_le (l : List ℚ) : ∀ a x : ℚ, x ∈ l → l.foldl min a ≤ x := by
  induction l with
  | nil => intro a x hx; exact absurd hx (List.not_mem_nil x)
  | cons y l ih =>
    intro a x hx
    rcases List.mem_cons.mp hx with h | h
    · subst h
      exact le_trans (foldl_min_le_init l (min a x)) (min_le_right a x)
    · exact ih (min a y) x h

theorem foldl_min_cases (l : List ℚ) : ∀ a : ℚ, l.foldl min a = a ∨ l.foldl min a ∈ l := by
  induction l with
  | nil => intro a; exact Or.inl rfl
  | cons x l ih =>
    intro a
    rcases ih (min a x) with h | h
    · rcases min_choice a x with hm | hm
      · exact Or.inl (by rw [List.foldl_cons, h, hm])
      · refine Or.inr ?_
        rw [List.foldl_cons, h, hm]
        exact List.mem_cons_self x l
    · exact Or.inr (List.mem_cons_of_mem x h)

theorem foldl_max_init_le (l : List ℚ) : ∀ a : ℚ, a ≤ l.foldl max a := by
  induction l with
  | nil => intro a; exact le_refl a
  | cons x l ih => intro a; exact le_trans (le_max_left a x) (ih (max a x))

theorem foldl_max_le (l : List ℚ) : ∀ a x : ℚ, x ∈ l → x ≤ l.foldl max a := by
  induction l with
  | nil => intro a x hx; exact absurd hx (List.not_mem_nil x)
  | cons y l ih =>
    intro a x hx
    rcases List.mem_cons.mp hx with h | h
    · subst h
      exact le_trans (le_max_right a x) (foldl_max_init_le l (max a x))
    · exact ih (max a y) x h

theorem foldl_max_cases (l : List ℚ) : ∀ a : ℚ, l.foldl max a = a ∨ l.foldl max a ∈ l := by
  induction l with
  | nil => intro a; exact Or.inl rfl
  | cons x l ih =>
    intro a
    rcases ih (max a x) with h | h
    · rcases max_choice a x with hm | hm
      · exact Or.inl (by rw [List.foldl_cons, h, hm])
      · refine Or.inr ?_
        rw [List.foldl_cons, h, hm]
        exact List.mem_cons_self x l
    · exact Or.inr (List.mem_cons_of_mem x h)

theorem listMin_le (l : List ℚ) (x : ℚ) (hx : x ∈ l) : listMin l ≤ x :=
  foldl_min_le l (l.headD 0) x hx

theorem le_listMax (l : List ℚ) (x : ℚ) (hx : x ∈ l) : x ≤ listMax l :=
  foldl_max_le l (l.headD 0) x hx

theorem listMin_mem (l : List ℚ) (hne : l ≠ []) : listMin l ∈ l := by
  rcases foldl_min_cases l (l.headD 0) with h | h
  · rw [listMin, h]
    cases l with
    | nil => exact absurd rfl hne
    | cons x xs => exact List.mem_cons_self x xs
  · exact h

theorem listMax_mem (l : List ℚ) (hne : l ≠ []) : listMax l ∈ l := by
  rcases foldl_max_cases l (l.headD 0) with h | h
  · rw [listMax, h]
    cases l with
    | nil => exact absurd rfl hne
    | cons x xs => exact List.mem_cons_self x xs
  · exact h

theorem listMin_le_listMax (l : List ℚ) (hne : l ≠ []) : listMin l ≤ listMax l :=
  le_listMax l (listMin l) (listMin_mem l hne)

/-- **C6 (counterexample).** A bounding box with both extents `1/2` (points
`(0,0)` and `(1/2,1/2)`): the claim's formula `max(maxx−minx, 1)` gives 1,
but the code's `(maxx−minx) or 1` keeps `1/2`, because Python's `or` only
replaces an exactly-zero extent. -/
theorem C6_or_vs_max_counterexample :
    norm_w [((0 : ℚ), 0), (1/2, 1/2)] = 1/2 ∧
      spec_norm_w [((0 : ℚ), 0), (1/2, 1/2)] = 1 ∧
      (1 : ℚ)/2 ≠ 1 := by
  refine ⟨?_, ?_, by norm_num⟩ <;>
    norm_num [norm_w, spec_norm_w, pyOr, listMin, listMax]

/-- **C6 (amended).** In the Canvas Normalizer, for every non-empty point
set the width used in the scale computation equals `maxx − minx` whenever
that extent is nonzero and 1 when the extent is exactly 0 (similarly for
the height); an extent strictly between 0 and 1 is used as-is, not replaced
by 1.  Both substitutes are positive, so the scale divisor
`max(w, h)` is positive and no division by zero occurs, including for a
single-point design. -/
theorem C6_width_height_zero_guard (pts : List (ℚ × ℚ)) (hne : pts ≠ []) :
    ((listMax (pts.map Prod.fst) - listMin (pts.map Prod.fst) ≠ 0 ∧
        norm_w pts = listMax (pts.map Prod.fst) - listMin (pts.map Prod.fst)) ∨
      (listMax (pts.map Prod.fst) - listMin (pts.map Prod.fst) = 0 ∧ norm_w pts = 1)) ∧
    ((listMax (pts.map Prod.snd) - listMin (pts.map Prod.snd) ≠ 0 ∧
        norm_h pts = listMax (pts.map Prod.snd) - listMin (pts.map Prod.snd)) ∨
      (listMax (pts.map Prod.snd) - listMin (pts.map Prod.snd) = 0 ∧ norm_h pts = 1)) ∧
    0 < norm_w pts ∧ 0 < norm_h pts ∧ 0 < max (norm_w pts) (norm_h pts) := by
  have hxs : pts.map Prod.fst ≠ [] := by
    intro h
    exact hne (List.map_eq_nil_iff.mp h)
  have hys : pts.map Prod.snd ≠ [] := by
    intro h
    exact hne (List.map_eq_nil_iff.mp h)
  have hwx : 0 ≤ listMax (pts.map Prod.fst) - listMin (pts.map Prod.fst) := by
    have := listMin_le_listMax (pts.map Prod.fst) hxs
    linarith
  have hwy : 0 ≤ listMax (pts.map Prod.snd) - listMin (pts.map Prod.snd) := by
    have := listMin_le_listMax (pts.map Prod.snd) hys
    linarith
  have hw : 0 < norm_w pts := by
    unfold norm_w pyOr
    split
    · norm_num
    · rename_i hz
      exact lt_of_le_of_ne hwx (Ne.symm hz)
  have hh : 0 < norm_h pts := by
    unfold norm_h pyOr
    split
    · norm_num
    · rename_i hz
      exact lt_of_le_of_ne hwy (Ne.symm hz)
  refine ⟨?_, ?_, hw, hh, lt_max_of_lt_left hw⟩
  · unfold norm_w pyOr
    by_cases hz : listMax (pts.map Prod.fst) - listMin (pts.map Prod.fst) = 0
    · exact Or.inr ⟨hz, by rw [if_pos hz]⟩
    · exact Or.inl ⟨hz, by rw [if_neg hz]⟩
  · unfold norm_h pyOr
    by_cases hz : listMax (pts.map Prod.snd) - listMin (pts.map Prod.snd) = 0
    · exact Or.inr ⟨hz, by rw [if_pos hz]⟩
    · exact Or.inl ⟨hz, by rw [if_neg hz]⟩

/-- Witness for C6 at the single-point design `[(3, 4)]`: both extents are
0, both substitutes are 1, and the scale divisor is positive. -/
theorem C6_width_height_zero_guard_witness :
    norm_w [((3 : ℚ), 4)] = 1 ∧ norm_h [((3 : ℚ), 4)] = 1 ∧
      0 < max (norm_w [((3 : ℚ), 4)]) (norm_h [((3 : ℚ), 4)]) := by
  have h := C6_width_height_zero_guard [((3 : ℚ), 4)] (by simp)
  have hx0 : listMax ([((3 : ℚ), 4)].map Prod.fst) -
      listMin ([((3 : ℚ), 4)].map Prod.fst) = 0 := by
    norm_num [listMin, listMax]
  have hy0 : listMax ([((3 : ℚ), 4)].map Prod.snd) -
      listMin ([((3 : ℚ), 4)].map Prod.snd) = 0 := by
    norm_num [listMin, listMax]
  rcases h.1 with ⟨hne, _⟩ | ⟨_, hw1⟩
  · exact absurd hx0 hne
  · rcases h.2.1 with ⟨hne, _⟩ | ⟨_, hh1⟩
    · exact absurd hy0 hne
    · exact ⟨hw1, hh1, h.2.2.2.2⟩

/-! ### C2: normalization bounds -/

/-- `minx` as computed inside `normalize_blocks`. -/
def nb_minx (blocks : List (List Seg)) : ℚ := listMin ((collect_pts blocks).map Prod.fst)

/-- `maxx` as computed inside `normalize_blocks`. -/
def nb_maxx (blocks : List (List Seg)) : ℚ := listMax ((collect_pts blocks).map Prod.fst)

/-- `miny` as computed inside `normalize_blocks`. -/
def nb_miny (blocks : List (List Seg)) : ℚ := listMin ((collect_pts blocks).map Prod.snd)

/-- `maxy` as computed inside `normalize_blocks`. -/
def nb_maxy (blocks : List (List Seg)) : ℚ := listMax ((collect_pts blocks).map Prod.snd)

/-- `scale` as computed inside `normalize_blocks`. -/
def nb_scale (blocks : List (List Seg)) (padding canvas : ℚ) : ℚ :=
  (canvas - 2 * padding) / max (norm_w (collect_pts blocks)) (norm_h (collect_pts blocks))

theorem normalize_blocks_spec (blocks : List (List Seg)) (p c : ℚ)
    (hne : ¬(collect_pts blocks = [])) :
    normalize_blocks blocks p c =
      (blocks.map (fun b => b.map (fun seg =>
        ((seg.1 - nb_minx blocks) * nb_scale blocks p c + p,
         (seg.2.1 - nb_miny blocks) * nb_scale blocks p c + p,
         (seg.2.2.1 - nb_minx blocks) * nb_scale blocks p c + p,
         (seg.2.2.2 - nb_miny blocks) * nb_scale blocks p c + p))), c) := by
  simp only [normalize_blocks]
  rw [if_neg hne]
  rfl

theorem collect_pts_map_affine (blocks : List (List Seg)) (fx fy : ℚ → ℚ) :
    collect_pts (blocks.map (fun b => b.map (fun seg =>
        (fx seg.1, fy seg.2.1, fx seg.2.2.1, fy seg.2.2.2)))) =
      (collect_pts blocks).map (fun q => (fx q.1, fy q.2)) := by
  induction blocks with
  | nil => rfl
  | cons b bs ih =>
    simp only [List.map_cons, collect_pts, List.flatMap_cons, List.map_append] at *
    rw [ih]
    congr 1
    induction b with
    | nil => rfl
    | cons s ss ihb =>
      simp only [List.map_cons, List.flatMap_cons, List.map_append, ihb]
      rfl

theorem scale_bound_aux (p c M : ℚ) (hM : 0 < M) (hpc : 2 * p ≤ c)
    (v lo hi : ℚ) (hlo : lo ≤ v) (hhi : v ≤ hi) (hle : hi - lo ≤ M) :
    p ≤ (v - lo) * ((c - 2 * p) / M) + p ∧
      (v - lo) * ((c - 2 * p) / M) + p ≤ c - p := by
  have hsc : 0 ≤ (c - 2 * p) / M := div_nonneg (by linarith) (le_of_lt hM)
  constructor
  · have := mul_nonneg (show (0 : ℚ) ≤ v - lo by linarith) hsc
    linarith
  · have h1 : (v - lo) * ((c - 2 * p) / M) ≤ M * ((c - 2 * p) / M) :=
      mul_le_mul_of_nonneg_right (by linarith) hsc
    have h2 : M * ((c - 2 * p) / M) = c - 2 * p := by
      field_simp
    linarith

theorem scale_exact_aux (p c M : ℚ) (hM : 0 < M) :
    M * ((c - 2 * p) / M) + p = c - p := by
  have h2 : M * ((c - 2 * p) / M) = c - 2 * p := by
    field_simp
  linarith

/-- **C2.** For every block list with a non-degenerate bounding box (both
axis extents positive), after `normalize_blocks` runs with padding `p` and
canvas `c` (with `2p ≤ c`): the returned canvas is `c` unchanged; every
segment endpoint coordinate lies within `[p, c − p]`; the maximum
coordinate along the longer axis of the bounding box is mapped exactly to
`c − p` (exact rational arithmetic, so no floating-point tolerance is
needed); and any block list with no segment endpoints at all is returned
unchanged. -/
theorem C2_normalize_bounds (blocks : List (List Seg)) (p c : ℚ)
    (hx : nb_minx blocks < nb_maxx blocks)
    (hy : nb_miny blocks < nb_maxy blocks)
    (hpc : 2 * p ≤ c) :
    ((normalize_blocks blocks p c).2 = c) ∧
    (∀ q ∈ collect_pts (normalize_blocks blocks p c).1,
      p ≤ q.1 ∧ q.1 ≤ c - p ∧ p ≤ q.2 ∧ q.2 ≤ c - p) ∧
    (if nb_maxy blocks - nb_miny blocks ≤ nb_maxx blocks - nb_minx blocks
      then ∃ q ∈ collect_pts (normalize_blocks blocks p c).1, q.1 = c - p
      else ∃ q ∈ collect_pts (normalize_blocks blocks p c).1, q.2 = c - p) ∧
    (∀ blocks2 : List (List Seg), collect_pts blocks2 = [] →
      normalize_blocks blocks2 p c = (blocks2, c)) := by
  have hne : ¬(collect_pts blocks = []) := by
    intro h
    rw [nb_minx, nb_maxx, h] at hx
    norm_num [listMin, listMax] at hx
  have hxs : (collect_pts blocks).map Prod.fst ≠ [] :=
    fun h => hne (List.map_eq_nil_iff.mp h)
  have hys : (collect_pts blocks).map Prod.snd ≠ [] :=
    fun h => hne (List.map_eq_nil_iff.mp h)
  have hEx : (0 : ℚ) < nb_maxx blocks - nb_minx blocks := by linarith
  have hEy : (0 : ℚ) < nb_maxy blocks - nb_miny blocks := by linarith
  have hw : norm_w (collect_pts blocks) = nb_maxx blocks - nb_minx blocks := by
    rw [norm_w, pyOr, if_neg]
    · rfl
    · exact ne_of_gt hEx
  have hh : norm_h (collect_pts blocks) = nb_maxy blocks - nb_miny blocks := by
    rw [norm_h, pyOr, if_neg]
    · rfl
    · exact ne_of_gt hEy
  have hmaxpos : (0 : ℚ) <
      max (nb_maxx blocks - nb_minx blocks) (nb_maxy blocks - nb_miny blocks) :=
    lt_max_of_lt_left hEx
  have hscale_eq : nb_scale blocks p c =
      (c - 2 * p) /
        max (nb_maxx blocks - nb_minx blocks) (nb_maxy blocks - nb_miny blocks) := by
    rw [nb_scale, hw, hh]
  have hcp : collect_pts (normalize_blocks blocks p c).1 =
      (collect_pts blocks).map (fun q =>
        ((q.1 - nb_minx blocks) * nb_scale blocks p c + p,
         (q.2 - nb_miny blocks) * nb_scale blocks p c + p)) := by
    rw [normalize_blocks_spec blocks p c hne]
    exact collect_pts_map_affine blocks
      (fun v => (v - nb_minx blocks) * nb_scale blocks p c + p)
      (fun v => (v - nb_miny blocks) * nb_scale blocks p c + p)
  refine ⟨by rw [normalize_blocks_spec blocks p c hne], ?_, ?_, ?_⟩
  · intro q hq
    rw [hcp] at hq
    obtain ⟨q0, hq0, rfl⟩ := List.mem_map.mp hq
    have hx1 : nb_minx blocks ≤ q0.1 :=
      listMin_le _ _ (List.mem_map_of_mem Prod.fst hq0)
    have hx2 : q0.1 ≤ nb_maxx blocks :=
      le_listMax _ _ (List.mem_map_of_mem Prod.fst hq0)
    have hy1 : nb_miny blocks ≤ q0.2 :=
      listMin_le _ _ (List.mem_map_of_mem Prod.snd hq0)
    have hy2 : q0.2 ≤ nb_maxy blocks :=
      le_listMax _ _ (List.mem_map_of_mem Prod.snd hq0)
    have hbx := scale_bound_aux p c _ hmaxpos hpc q0.1 (nb_minx blocks)
      (nb_maxx blocks) hx1 hx2 (le_max_left _ _)
    have hby := scale_bound_aux p c _ hmaxpos hpc q0.2 (nb_miny blocks)
      (nb_maxy blocks) hy1 hy2 (le_max_right _ _)
    rw [hscale_eq]
    exact ⟨hbx.1, hbx.2, hby.1, hby.2⟩
  · by_cases hxy : nb_maxy blocks - nb_miny blocks ≤ nb_maxx blocks - nb_minx blocks
    · rw [if_pos hxy]
      obtain ⟨q0, hq0, hfst⟩ := List.mem_map.mp (listMax_mem _ hxs)
      refine ⟨((q0.1 - nb_minx blocks) * nb_scale blocks p c + p,
          (q0.2 - nb_miny blocks) * nb_scale blocks p c + p), ?_, ?_⟩
      · rw [hcp]
        exact List.mem_map_of_mem _ hq0
      · show (q0.1 - nb_minx blocks) * nb_scale blocks p c + p = c - p
        rw [hfst, hscale_eq, max_eq_left hxy]
        exact scale_exact_aux p c _ hEx
    · rw [if_neg hxy]
      obtain ⟨q0, hq0, hsnd⟩ := List.mem_map.mp (listMax_mem _ hys)
      refine ⟨((q0.1 - nb_minx blocks) * nb_scale blocks p c + p,
          (q0.2 - nb_miny blocks) * nb_scale blocks p c + p), ?_, ?_⟩
      · rw [hcp]
        exact List.mem_map_of_mem _ hq0
      · show (q0.2 - nb_miny blocks) * nb_scale blocks p c + p = c - p
        rw [hsnd, hscale_eq, max_eq_right (le_of_not_le hxy)]
        exact scale_exact_aux p c _ hEy
  · intro blocks2 h2
    simp [normalize_blocks, h2]

/-- Witness for C2 at one segment from `(0,0)` to `(20,10)` with padding 40
and canvas 900: the canvas is returned unchanged and the maximum x
coordinate (the longer axis) maps to `900 − 40 = 860`. -/
theorem C2_normalize_bounds_witness :
    (normalize_blocks [[((0 : ℚ), 0, 20, 10)]] 40 900).2 = 900 ∧
      ∃ q ∈ collect_pts (normalize_blocks [[((0 : ℚ), 0, 20, 10)]] 40 900).1,
        q.1 = 860 := by
  have hx : nb_minx [[((0 : ℚ), 0, 20, 10)]] < nb_maxx [[((0 : ℚ), 0, 20, 10)]] := by
    norm_num [nb_minx, nb_maxx, collect_pts, listMin, listMax]
  have hy : nb_miny [[((0 : ℚ), 0, 20, 10)]] < nb_maxy [[((0 : ℚ), 0, 20, 10)]] := by
    norm_num [nb_miny, nb_maxy, collect_pts, listMin, listMax]
  have h := C2_normalize_bounds [[((0 : ℚ), 0, 20, 10)]] 40 900 hx hy (by norm_num)
  have hcond : nb_maxy [[((0 : ℚ), 0, 20, 10)]] - nb_miny [[((0 : ℚ), 0, 20, 10)]] ≤
      nb_maxx [[((0 : ℚ), 0, 20, 10)]] - nb_minx [[((0 : ℚ), 0, 20, 10)]] := by
    norm_num [nb_minx, nb_maxx, nb_miny, nb_maxy, collect_pts, listMin, listMax]
  have h3 := h.2.2.1
  rw [if_pos hcond] at h3
  norm_num at h3
  obtain ⟨x, hx860⟩ := h3
  exact ⟨h.1, ⟨(860, x), hx860, rfl⟩⟩
